import Mathlib

/-!
Verification of the kine `generic` SQL driver
(`pkg/drivers/generic/generic.go`): a revision-versioned key-value store
persisted in a single relational table `key_value`.

The embedding models the table as a list of rows plus the database's
id-allocation counter.  Each SQL statement of the driver's statement
library is translated into an executable Lean function over that table
state; the driver methods (`Insert`, `List`, `ListCurrent`, `Count`,
`After`, `CurrentRevision`, `GetCompactRevision`, `SetCompactRevision`,
`DeleteRevision`) are translated on top of those.  Database-level
execution failures are external to the pure model; the only error value
that arises structurally is `sql.ErrNoRows` from scanning an empty
result, modelled by `ScanErr.errNoRows`.
-/

/-- One row of the `key_value` table: one historical version of one key.
Column names follow the table schema.  `created` and `deleted` are the
stored integers (the Go driver writes 0 or 1), `value` and `old_value`
are byte strings, `old_value` nullable. -/
structure KeyValue where
  id : Int
  name : String
  created : Int
  deleted : Int
  create_revision : Int
  prev_revision : Int
  lease : Int
  value : List Nat
  old_value : Option (List Nat)
deriving Repr, DecidableEq

/-- A query result set: a list of rows. -/
abbrev Rows := List KeyValue

/-- The database state: the rows of `key_value` together with the
auto-increment counter for the `id` column (ids are assigned
monotonically, never reused; this is the engine's revision source). -/
structure DBState where
  rows : List KeyValue
  nextId : Int
deriving Repr, DecidableEq

/-- SQL `LIKE` matching with the standard wildcards `%` (any sequence)
and `_` (any single character), fuel-indexed so that it is structurally
recursive and kernel-computable.  Each step consumes at least one
character of the pattern or of the string, so fuel
`p.length + s.length + 1` always suffices. -/
def likeFuel : Nat → List Char → List Char → Bool
  | 0, _, _ => false
  | _ + 1, [], [] => true
  | _ + 1, [], _ :: _ => false
  | f + 1, p :: ps, s =>
    if p = '%' then
      likeFuel f ps s ||
        (match s with
         | [] => false
         | _ :: s2 => likeFuel f (p :: ps) s2)
    else
      match s with
      | [] => false
      | c :: s2 => (p = '_' || p = c) && likeFuel f ps s2

/-- `name LIKE pattern` as used by the list/after statements. -/
def likeMatch (pat s : String) : Bool :=
  likeFuel (pat.length + s.length + 1) pat.data s.data

/-- `SELECT MAX(id)` over a set of rows (the shape of `revSQL` and of the
per-name `MAX(mkv.id)` group subquery): `none` on an empty row set. -/
def maxId : List KeyValue → Option Int
  | [] => none
  | r :: rs =>
    match maxId rs with
    | none => some r.id
    | some m => some (max r.id m)

/-- `ORDER BY id DESC LIMIT 1` over a set of rows: the row carrying the
maximal id (rows have unique ids in every state the driver produces). -/
def maxRowBy : List KeyValue → Option KeyValue
  | [] => none
  | r :: rs =>
    match maxRowBy rs with
    | none => some r
    | some m => if r.id < m.id then some m else some r

/-- Insertion step for `sortById`. -/
def insertSorted (r : KeyValue) : List KeyValue → List KeyValue
  | [] => [r]
  | x :: xs => if r.id ≤ x.id then r :: x :: xs else x :: insertSorted r xs

/-- `ORDER BY kv.id ASC`. -/
def sortById : List KeyValue → List KeyValue
  | [] => []
  | r :: rs => insertSorted r (sortById rs)

/-- The dialect adapter `q` (from the source): rewrites each `?`
placeholder of a template into the driver's parameter marker, numbering
the markers left-to-right when `numbered` is set.  `n` is the running
occurrence counter (the Go code increments before use, so the first
marker gets number 1). -/
def replaceQMarks : List Char → String → Bool → Nat → List Char
  | [], _, _, _ => []
  | c :: rest, param, numbered, n =>
    if c = '?' then
      (if numbered then (param ++ toString (n + 1)).data else param.data) ++
        replaceQMarks rest param numbered (n + 1)
    else
      c :: replaceQMarks rest param numbered n

/-- The dialect adapter: `q(sql, param, numbered)` from the source,
including its early-return branch for the `?`/unnumbered identity
case. -/
def q (sql param : String) (numbered : Bool) : String :=
  if param = "?" && !numbered then sql
  else ⟨replaceQMarks sql.data param numbered 0⟩

/-- Modelled from the spec's contract for the dialect adapter (§4.1):
replace each unnumbered `?` placeholder with the marker, appending a
number counting occurrences left-to-right starting at 1 when the
numbered flag is set, leaving every other character unchanged. -/
def qSpecAux : List Char → String → Bool → Nat → List Char
  | [], _, _, _ => []
  | c :: rest, param, numbered, n =>
    if c = '?' then
      (if numbered then param ++ toString n else param).data ++
        qSpecAux rest param numbered (n + 1)
    else
      c :: qSpecAux rest param numbered n

/-- Spec-side statement of the dialect adapter, numbering from 1. -/
def qSpec (sql param : String) (numbered : Bool) : String :=
  ⟨qSpecAux sql.data param numbered 1⟩

/-- The scan error that can arise structurally in the pure model:
`sql.ErrNoRows`, returned when a single-row scan finds no row.
Database-level execution failures are external to the model. -/
inductive ScanErr
  | errNoRows
deriving Repr, DecidableEq

deriving instance DecidableEq for Except

/-- `sql.Row.Scan`: scanning a query expected to produce one row.  An
empty result yields `sql.ErrNoRows`. -/
def scanOpt {α : Type} (o : Option α) : Except ScanErr α :=
  match o with
  | none => .error .errNoRows
  | some a => .ok a

/-- `sql.NullInt64`: a nullable integer column, whose `.Int64` field is 0
when the value is NULL. -/
def nullInt64 : Option Int → Int
  | none => 0
  | some v => v

/-- `revSQL`: `SELECT rkv.id FROM key_value rkv ORDER BY rkv.id DESC
LIMIT 1` — the id of the row with the maximal id, the global revision
high-water mark. -/
def revQuery (rows : List KeyValue) : Option Int :=
  maxId rows

/-- `compactRevSQL`: `SELECT crkv.prev_revision FROM key_value crkv
WHERE crkv.name = 'compact_rev_key' ORDER BY crkv.id DESC LIMIT 1` —
the `prev_revision` of the newest compaction sentinel row. -/
def compactRevQuery (rows : List KeyValue) : Option Int :=
  (maxRowBy (rows.filter (fun r => r.name == "compact_rev_key"))).map KeyValue.prev_revision

/-- The `GROUP BY mkv.name` subquery of `listSQL`: for the rows passing
the `mkv.name LIKE ?` filter and the optional extra predicate
(`""`, `AND mkv.id <= ?`, or the `idOfKey` fragment), the per-name
`MAX(mkv.id)`.  `fr` is the already-filtered row set; one entry per row
of a group rather than one per group, which joins to the same result
set since the join below tests id membership. -/
def groupMaxIds (fr : List KeyValue) : List Int :=
  fr.filterMap (fun g => maxId (fr.filter (fun r => r.name == g.name)))

/-- `listSQL` instantiated with an extra group predicate: join
`key_value kv` to the per-name maximum ids on `maxkv.id = kv.id`, keep
rows passing `(kv.deleted = 0 OR ?)`, `ORDER BY kv.id ASC`. -/
def listQuery (rows : List KeyValue) (pat : String) (extra : KeyValue → Bool)
    (includeDeleted : Bool) : List KeyValue :=
  let fr := rows.filter (fun r => likeMatch pat r.name && extra r)
  let ids := groupMaxIds fr
  sortById (rows.filter (fun kv => decide (kv.id ∈ ids) && (kv.deleted == 0 || includeDeleted)))

/-- The `idOfKey` fragment used by `GetRevisionAfterSQL`:
`AND mkv.id <= ?(revision) AND mkv.id > (SELECT ikv.id FROM key_value
ikv WHERE ikv.name = ?(startKey) AND ikv.id <= ?(revision) ORDER BY
ikv.id DESC LIMIT 1)`.  A NULL scalar subquery makes the comparison
false. -/
def idOfKeyExtra (rows : List KeyValue) (startKey : String) (revision : Int)
    (r : KeyValue) : Bool :=
  decide (r.id ≤ revision) &&
    (match maxId (rows.filter (fun ikv => ikv.name == startKey && decide (ikv.id ≤ revision))) with
     | none => false
     | some b => decide (b < r.id))

/-- Appending `LIMIT n` to a list statement when the caller supplies a
positive limit. -/
def applyLimit (limit : Int) (l : List KeyValue) : List KeyValue :=
  if limit > 0 then l.take limit.toNat else l

/-- `Generic.Insert`: append one row whose `id` the database assigns
from its monotone counter, with the create/delete booleans stored as the
integers 1/0.  `lastInsertID` selects between the two strategies of the
source: the serialized fallback (plain INSERT under the mutex, then
`LastInsertId`, which under that serialization is the id generated by
this very insert) and the returning-capable path (INSERT .. RETURNING
id, scanned directly).  In the sequential model both return the
appended row's id. -/
def Generic.Insert (lastInsertID : Bool) (s : DBState) (key : String)
    (create delete : Bool) (createRevision previousRevision ttl : Int)
    (value : List Nat) (prevValue : Option (List Nat)) : Int × DBState :=
  let cVal : Int := if create then 1 else 0
  let dVal : Int := if delete then 1 else 0
  let newRow : KeyValue :=
    ⟨s.nextId, key, cVal, dVal, createRevision, previousRevision, ttl, value, prevValue⟩
  let s2 : DBState := ⟨s.rows ++ [newRow], s.nextId + 1⟩
  if lastInsertID then
    (s.nextId, s2)
  else
    (s.nextId, s2)

/-- `Generic.ListCurrent`: `GetCurrentSQL` (the list template with no
extra predicate), with `LIMIT` appended for a positive limit;
parameters `(prefix-pattern, includeDeleted)`. -/
def Generic.ListCurrent (s : DBState) (pat : String) (limit : Int)
    (includeDeleted : Bool) : List KeyValue :=
  applyLimit limit (listQuery s.rows pat (fun _ => true) includeDeleted)

/-- `Generic.List`: for an empty `startKey`, `ListRevisionStartSQL`
(extra predicate `AND mkv.id <= ?(revision)`) with parameters
`(pattern, revision, includeDeleted)`; otherwise `GetRevisionAfterSQL`
(the `idOfKey` fragment) with parameters
`(pattern, revision, startKey, revision, includeDeleted)`. -/
def Generic.List (s : DBState) (pat startKey : String) (limit revision : Int)
    (includeDeleted : Bool) : List KeyValue :=
  if startKey = "" then
    applyLimit limit (listQuery s.rows pat (fun r => decide (r.id ≤ revision)) includeDeleted)
  else
    applyLimit limit (listQuery s.rows pat (idOfKeyExtra s.rows startKey revision) includeDeleted)

/-- `Generic.Count`: `CountSQL` wraps the list-current statement
(parameters `(pattern, false)`) inside
`SELECT (revSQL), COUNT(c.theid)`, one aggregate output row whose
revision column is NULL on an empty table (`sql.NullInt64` maps NULL
to 0). -/
def Generic.Count (s : DBState) (pat : String) : Except ScanErr (Int × Int) :=
  .ok (nullInt64 (revQuery s.rows),
       ((listQuery s.rows pat (fun _ => true) false).length : Int))

/-- `Generic.CurrentRevision`: scan `revSQL`; `sql.ErrNoRows` (empty
table) is returned as `(0, nil)`. -/
def Generic.CurrentRevision (s : DBState) : Except ScanErr Int :=
  match scanOpt (revQuery s.rows) with
  | .error .errNoRows => .ok 0
  | .ok v => .ok v

/-- `Generic.GetCompactRevision`: scan `compactRevSQL`; `sql.ErrNoRows`
(no sentinel row) is returned as `(0, nil)`. -/
def Generic.GetCompactRevision (s : DBState) : Except ScanErr Int :=
  match scanOpt (compactRevQuery s.rows) with
  | .error .errNoRows => .ok 0
  | .ok v => .ok v

/-- `Generic.After`: `AfterSQL` — every row (all historical versions,
deleted or not) with `kv.name LIKE ?` and `kv.id > ?`, ascending by
id. -/
def Generic.After (s : DBState) (pat : String) (rev : Int) : Rows :=
  sortById (s.rows.filter (fun kv => likeMatch pat kv.name && decide (rev < kv.id)))

/-- `Generic.DeleteRevision`: `DELETE FROM key_value WHERE id = ?`; only
the execution error is returned, rows-affected is never inspected.
Deleting never rewinds the id counter. -/
def Generic.DeleteRevision (s : DBState) (revision : Int) : Except ScanErr DBState :=
  .ok ⟨s.rows.filter (fun r => !(r.id == revision)), s.nextId⟩

/-- `UpdateCompactSQL`: `UPDATE key_value SET prev_revision = ? WHERE
name = 'compact_rev_key'`. -/
def updateCompact (s : DBState) (revision : Int) : DBState :=
  ⟨s.rows.map (fun r =>
      if r.name == "compact_rev_key" then { r with prev_revision := revision } else r),
   s.nextId⟩

/-- `Generic.SetCompactRevision`: execute the sentinel update; when it
affects no row (no sentinel exists) fall back to inserting the sentinel
via `Insert(\x22compact_rev_key\x22, false, false, 0, revision, 0, [], nil)`. -/
def Generic.SetCompactRevision (lastInsertID : Bool) (s : DBState) (revision : Int) :
    Except ScanErr DBState :=
  let num := (s.rows.filter (fun r => r.name == "compact_rev_key")).length
  let s1 := updateCompact s revision
  if num ≠ 0 then
    .ok s1
  else
    .ok (Generic.Insert lastInsertID s1 "compact_rev_key" false false 0 revision 0 [] none).2

/-- `Generic.GetRevision`: `GetRevisionSQL`, a point lookup by exact
revision id. -/
def Generic.GetRevision (s : DBState) (revision : Int) : Rows :=
  s.rows.filter (fun r => decide (r.id = revision))

/-- The arguments of one `Insert` call. -/
structure InsertReq where
  key : String
  create : Bool
  delete : Bool
  createRevision : Int
  previousRevision : Int
  ttl : Int
  value : List Nat
  prevValue : Option (List Nat)
deriving Repr, DecidableEq

/-- A sequence of successful `Insert` calls executed in order on one
engine instance (the order in which the database serializes them: call
completion order on the returning-capable path, invocation order under
the fallback mutex), collecting the returned ids. -/
def runInserts (lastInsertID : Bool) (s : DBState) : List InsertReq → List Int
  | [] => []
  | a :: rest =>
    let r := Generic.Insert lastInsertID s a.key a.create a.delete a.createRevision
      a.previousRevision a.ttl a.value a.prevValue
    r.1 :: runInserts lastInsertID r.2 rest

/-- Table states reachable through the driver's mutating operations
from the empty table (ids allocated from 1). -/
inductive Reachable : DBState → Prop
  | init : Reachable ⟨[], 1⟩
  | insert (lid : Bool) (s : DBState) (key : String) (create delete : Bool)
      (cr pr ttl : Int) (v : List Nat) (pv : Option (List Nat)) :
      Reachable s →
      Reachable (Generic.Insert lid s key create delete cr pr ttl v pv).2
  | deleteRev (s : DBState) (rev : Int) (s2 : DBState) :
      Reachable s → Generic.DeleteRevision s rev = .ok s2 → Reachable s2
  | setCompact (lid : Bool) (s : DBState) (rev : Int) (s2 : DBState) :
      Reachable s → Generic.SetCompactRevision lid s rev = .ok s2 → Reachable s2

/-- A small concrete table used to instantiate the verified properties:
key `a` written at revision 1 and overwritten at revision 2. -/
def exState : DBState :=
  ⟨[⟨1, "a", 1, 0, 0, 0, 0, [49], none⟩,
    ⟨2, "a", 0, 0, 1, 1, 0, [50], some [49]⟩], 3⟩

/-- A small concrete table whose key `x` was written at revision 1 and
tombstoned at revision 2. -/
def exTombState : DBState :=
  ⟨[⟨1, "x", 1, 0, 0, 0, 0, [1], none⟩,
    ⟨2, "x", 0, 1, 1, 1, 0, [], some [1]⟩], 3⟩

/-! ### Helper lemmas about the query building blocks -/

theorem mem_insertSorted (a r : KeyValue) (l : List KeyValue) :
    a ∈ insertSorted r l ↔ a = r ∨ a ∈ l := by
  induction l with
  | nil => simp [insertSorted]
  | cons x xs ih =>
    by_cases h : r.id ≤ x.id
    · simp [insertSorted, h, List.mem_cons]
    · simp [insertSorted, h, List.mem_cons, ih]
      tauto

theorem mem_sortById (a : KeyValue) (l : List KeyValue) :
    a ∈ sortById l ↔ a ∈ l := by
  induction l with
  | nil => simp [sortById]
  | cons x xs ih => simp [sortById, mem_insertSorted, ih, List.mem_cons]

theorem length_insertSorted (r : KeyValue) (l : List KeyValue) :
    (insertSorted r l).length = l.length + 1 := by
  induction l with
  | nil => simp [insertSorted]
  | cons x xs ih =>
    by_cases h : r.id ≤ x.id
    · simp [insertSorted, h]
    · simp [insertSorted, h, ih]

theorem length_sortById (l : List KeyValue) :
    (sortById l).length = l.length := by
  induction l with
  | nil => simp [sortById]
  | cons x xs ih => simp [sortById, length_insertSorted, ih]

theorem mem_applyLimit (a : KeyValue) (lim : Int) (l : List KeyValue) :
    a ∈ applyLimit lim l → a ∈ l := by
  unfold applyLimit
  by_cases h : lim > 0
  · simp only [h, if_pos]
    exact fun hmem => List.take_subset _ _ hmem
  · simp [h]

theorem applyLimit_zero (l : List KeyValue) : applyLimit 0 l = l := by
  simp [applyLimit]

theorem maxId_eq_none_iff (l : List KeyValue) : maxId l = none ↔ l = [] := by
  cases l with
  | nil => simp [maxId]
  | cons x xs => simp only [maxId]; cases maxId xs <;> simp

theorem maxId_mem (l : List KeyValue) :
    ∀ m, maxId l = some m → ∃ r, r ∈ l ∧ r.id = m := by
  induction l with
  | nil => intro m h; simp [maxId] at h
  | cons x xs ih =>
    intro m h
    cases hx : maxId xs with
    | none =>
      simp only [maxId, hx, Option.some.injEq] at h
      exact ⟨x, List.mem_cons_self x xs, h⟩
    | some m2 =>
      simp only [maxId, hx, Option.some.injEq] at h
      rcases ih m2 hx with ⟨r, hr, hrid⟩
      by_cases hc : x.id ≤ m2
      · exact ⟨r, List.mem_cons_of_mem x hr, by omega⟩
      · exact ⟨x, List.mem_cons_self x xs, by omega⟩

theorem le_maxId (l : List KeyValue) :
    ∀ r m, r ∈ l → maxId l = some m → r.id ≤ m := by
  induction l with
  | nil => intro r m hr _; simp at hr
  | cons x xs ih =>
    intro r m hr h
    cases hx : maxId xs with
    | none =>
      have hxs : xs = [] := (maxId_eq_none_iff xs).mp hx
      subst hxs
      simp only [maxId, hx, Option.some.injEq] at h
      rcases List.mem_cons.mp hr with hrx | hrxs
      · subst hrx; omega
      · simp at hrxs
    | some m2 =>
      simp only [maxId, hx, Option.some.injEq] at h
      rcases List.mem_cons.mp hr with hrx | hrxs
      · subst hrx; omega
      · have := ih r m2 hrxs hx
        omega

theorem maxRowBy_mem (l : List KeyValue) :
    ∀ r, maxRowBy l = some r → r ∈ l := by
  induction l with
  | nil => intro r h; simp [maxRowBy] at h
  | cons x xs ih =>
    intro r h
    cases hx : maxRowBy xs with
    | none =>
      simp only [maxRowBy, hx, Option.some.injEq] at h
      subst h
      exact List.mem_cons_self x xs
    | some m =>
      simp only [maxRowBy, hx] at h
      by_cases hc : x.id < m.id
      · rw [if_pos hc] at h
        injection h with h2
        subst h2
        exact List.mem_cons_of_mem x (ih m hx)
      · rw [if_neg hc] at h
        injection h with h2
        subst h2
        exact List.mem_cons_self x xs

theorem mem_groupMaxIds (fr : List KeyValue) (i : Int) (h : i ∈ groupMaxIds fr) :
    ∃ r, r ∈ fr ∧ r.id = i ∧ ∀ r2 ∈ fr, r2.name = r.name → r2.id ≤ i := by
  rcases List.mem_filterMap.mp h with ⟨g, hg, hmax⟩
  rcases maxId_mem _ _ hmax with ⟨r, hrmem, hrid⟩
  have hrfr : r ∈ fr := (List.mem_filter.mp hrmem).1
  have hrname : r.name = g.name := by
    have := (List.mem_filter.mp hrmem).2
    simpa using this
  refine ⟨r, hrfr, hrid, fun r2 h2 hname => ?_⟩
  have h2f : r2 ∈ fr.filter (fun r3 => r3.name == g.name) :=
    List.mem_filter.mpr ⟨h2, by simp [hname, hrname]⟩
  exact le_maxId _ r2 i h2f hmax

theorem groupMaxIds_mem_of (fr : List KeyValue) (t : KeyValue)
    (ht : t ∈ fr) (hmax : ∀ r2 ∈ fr, r2.name = t.name → r2.id ≤ t.id) :
    t.id ∈ groupMaxIds fr := by
  apply List.mem_filterMap.mpr
  refine ⟨t, ht, ?_⟩
  have htf : t ∈ fr.filter (fun r => r.name == t.name) :=
    List.mem_filter.mpr ⟨ht, by simp⟩
  cases hm : maxId (fr.filter (fun r => r.name == t.name)) with
  | none =>
    rw [maxId_eq_none_iff] at hm
    rw [hm] at htf
    simp at htf
  | some m =>
    have h1 : t.id ≤ m := le_maxId _ _ _ htf hm
    rcases maxId_mem _ _ hm with ⟨r2, hr2, hr2id⟩
    have hr2fr : r2 ∈ fr := (List.mem_filter.mp hr2).1
    have hr2name : r2.name = t.name := by
      have := (List.mem_filter.mp hr2).2
      simpa using this
    have h2 : m ≤ t.id := hr2id ▸ hmax r2 hr2fr hr2name
    have : m = t.id := le_antisymm h2 h1
    rw [this]

theorem replaceQMarks_eq_qSpecAux (param : String) (numbered : Bool) :
    ∀ (l : List Char) (n : Nat),
      replaceQMarks l param numbered n = qSpecAux l param numbered (n + 1) := by
  intro l
  induction l with
  | nil => intro n; rfl
  | cons c rest ih =>
    intro n
    by_cases hc : c = '?'
    · simp only [replaceQMarks, qSpecAux, if_pos hc, ih]
      cases numbered <;> simp
    · simp only [replaceQMarks, qSpecAux, if_neg hc, ih]

theorem replaceQMarks_id : ∀ (l : List Char) (n : Nat),
    replaceQMarks l "?" false n = l := by
  intro l
  induction l with
  | nil => intro n; rfl
  | cons c rest ih =>
    intro n
    by_cases hc : c = '?'
    · subst hc
      simp only [replaceQMarks, if_pos rfl, ih]
      rfl
    · simp only [replaceQMarks, if_neg hc, ih]

theorem qSpecAux_id : ∀ (l : List Char) (n : Nat),
    qSpecAux l "?" false n = l := by
  intro l
  induction l with
  | nil => intro n; rfl
  | cons c rest ih =>
    intro n
    by_cases hc : c = '?'
    · subst hc
      simp only [qSpecAux, if_pos rfl, ih]
      rfl
    · simp only [qSpecAux, if_neg hc, ih]

/-- **C5** The dialect adapter `q` is a pure deterministic function of
its three arguments: it replaces each unnumbered `?` placeholder with
the parameter marker, appending an occurrence number counted
left-to-right from 1 when the numbered flag is set, and leaves every
other character of the template unchanged — i.e. it coincides
extensionally with the function `qSpec` written from the spec's words
(the source's early-return branch for an unnumbered `?` marker is the
identity instance of the same contract). -/
theorem q_matches_spec (sql param : String) (numbered : Bool) :
    q sql param numbered = qSpec sql param numbered := by
  unfold q qSpec
  by_cases hc : (decide (param = "?") && !numbered) = true
  · rw [if_pos hc]
    rcases Bool.and_eq_true_iff.mp hc with ⟨h1, h2⟩
    have hp : param = "?" := of_decide_eq_true h1
    have hn : numbered = false := by
      cases numbered
      · rfl
      · simp at h2
    subst hp
    subst hn
    rw [qSpecAux_id]
  · rw [if_neg hc]
    rw [replaceQMarks_eq_qSpecAux]

theorem insert_fst (lid : Bool) (s : DBState) (key : String) (c d : Bool)
    (cr pr ttl : Int) (v : List Nat) (pv : Option (List Nat)) :
    (Generic.Insert lid s key c d cr pr ttl v pv).1 = s.nextId := by
  cases lid <;> rfl

theorem insert_snd (lid : Bool) (s : DBState) (key : String) (c d : Bool)
    (cr pr ttl : Int) (v : List Nat) (pv : Option (List Nat)) :
    (Generic.Insert lid s key c d cr pr ttl v pv).2 =
      ⟨s.rows ++ [⟨s.nextId, key, if c then 1 else 0, if d then 1 else 0, cr, pr, ttl, v, pv⟩],
       s.nextId + 1⟩ := by
  cases lid <;> rfl

theorem runInserts_lb (lid : Bool) (l : List InsertReq) :
    ∀ (s : DBState), ∀ i ∈ runInserts lid s l, s.nextId ≤ i := by
  induction l with
  | nil => intro s i hi; simp [runInserts] at hi
  | cons a rest ih =>
    intro s i hi
    simp only [runInserts, List.mem_cons] at hi
    rcases hi with h1 | h2
    · rw [h1, insert_fst]
    · have hstep := ih _ i h2
      rw [insert_snd] at hstep
      simp only at hstep
      omega

/-- **C1** For any sequence of successful `Insert` calls, the returned
ids are strictly increasing in the order in which the database
serializes the inserts — call-completion order on the returning-capable
path (`lastInsertID = false`) and invocation order under the mutex of
the fallback path (`lastInsertID = true`); `runInserts` executes the
calls in exactly that order for either path. -/
theorem insert_ids_strictly_increasing (lid : Bool) (s : DBState) (l : List InsertReq) :
    List.Pairwise (· < ·) (runInserts lid s l) := by
  induction l generalizing s with
  | nil => simp [runInserts]
  | cons a rest ih =>
    simp only [runInserts]
    refine List.pairwise_cons.mpr ⟨?_, ih _⟩
    intro j hj
    have hlb := runInserts_lb lid rest _ j hj
    rw [insert_snd] at hlb
    simp only at hlb
    rw [insert_fst]
    omega

theorem generic_list_empty_startKey (s : DBState) (pat : String) (limit R : Int)
    (incl : Bool) :
    Generic.List s pat "" limit R incl =
      applyLimit limit (listQuery s.rows pat (fun r => decide (r.id ≤ R)) incl) := by
  unfold Generic.List
  rw [if_pos rfl]

theorem mem_listQuery (rows : List KeyValue) (pat : String) (extra : KeyValue → Bool)
    (incl : Bool) (r : KeyValue) :
    r ∈ listQuery rows pat extra incl ↔
      r ∈ rows ∧
      r.id ∈ groupMaxIds (rows.filter (fun r2 => likeMatch pat r2.name && extra r2)) ∧
      (r.deleted == 0 || incl) = true := by
  unfold listQuery
  rw [mem_sortById, List.mem_filter]
  simp only [Bool.and_eq_true, decide_eq_true_eq]

/-- **C2** `List(prefix, "", limit, R, includeDeleted)` is snapshot
consistent: every returned row has `id ≤ R` — the extra group predicate
`AND mkv.id <= ?` of `ListRevisionStartSQL` bounds every per-name
maximum, and the join only returns rows at those maxima. -/
theorem list_never_exceeds_revision (s : DBState) (pat : String) (limit R : Int)
    (incl : Bool) : ∀ r ∈ Generic.List s pat "" limit R incl, r.id ≤ R := by
  intro r hr
  rw [generic_list_empty_startKey] at hr
  have hr2 := mem_applyLimit r limit _ hr
  rw [mem_listQuery] at hr2
  rcases hr2 with ⟨_, hid, _⟩
  rcases mem_groupMaxIds _ _ hid with ⟨r2, hr2mem, hr2id, _⟩
  have hf := (List.mem_filter.mp hr2mem).2
  rw [Bool.and_eq_true] at hf
  have hle := of_decide_eq_true hf.2
  omega

theorem list_never_exceeds_revision_witness :
    (⟨1, "a", 1, 0, 0, 0, 0, [49], none⟩ : KeyValue).id ≤ (1 : Int) :=
  list_never_exceeds_revision exState "a" 0 1 false
    ⟨1, "a", 1, 0, 0, 0, 0, [49], none⟩ (by decide)

/-- **C9** `DeleteRevision(r)` never inspects the number of affected
rows: when no row with `id = r` exists the DELETE affects nothing, the
table is unchanged and the returned error is nil (only a database-level
execution failure, external to the pure model, would propagate). -/
theorem deleteRevision_absent_noop (s : DBState) (rev : Int)
    (h : ∀ r ∈ s.rows, r.id ≠ rev) :
    Generic.DeleteRevision s rev = .ok s := by
  unfold Generic.DeleteRevision
  have heq : s.rows.filter (fun r => !(r.id == rev)) = s.rows := by
    apply List.filter_eq_self.mpr
    intro a ha
    simp [h a ha]
  rw [heq]

theorem deleteRevision_absent_noop_witness :
    Generic.DeleteRevision exState 99 = .ok exState :=
  deleteRevision_absent_noop exState 99 (by decide)

/-- **C6** Not-found conditions are zero values with a nil error, never
errors: with no sentinel row `GetCompactRevision` returns `(0, nil)`
(the `sql.ErrNoRows` branch), on an empty table `CurrentRevision`
returns `(0, nil)` and `Count` returns revision 0 (the NULL maximum id
scanned through `sql.NullInt64`) with count 0 and a nil error. -/
theorem notFound_is_zero_not_error (s : DBState) (pat : String) :
    (s.rows.filter (fun r => r.name == "compact_rev_key") = [] →
      Generic.GetCompactRevision s = .ok 0) ∧
    (s.rows = [] →
      Generic.CurrentRevision s = .ok 0 ∧ Generic.Count s pat = .ok (0, 0)) := by
  constructor
  · intro h
    unfold Generic.GetCompactRevision compactRevQuery
    rw [h]
    rfl
  · intro h
    constructor
    · unfold Generic.CurrentRevision revQuery
      rw [h]
      rfl
    · unfold Generic.Count revQuery listQuery
      rw [h]
      rfl

theorem notFound_is_zero_not_error_witness :
    Generic.GetCompactRevision ⟨[], 1⟩ = .ok 0 ∧
    Generic.CurrentRevision ⟨[], 1⟩ = .ok 0 ∧
    Generic.Count ⟨[], 1⟩ "a" = .ok (0, 0) :=
  ⟨(notFound_is_zero_not_error ⟨[], 1⟩ "a").1 rfl,
   ((notFound_is_zero_not_error ⟨[], 1⟩ "a").2 rfl).1,
   ((notFound_is_zero_not_error ⟨[], 1⟩ "a").2 rfl).2⟩

theorem listQuery_congr (rows : List KeyValue) (pat : String)
    (e1 e2 : KeyValue → Bool) (incl : Bool)
    (h : ∀ r ∈ rows, e1 r = e2 r) :
    listQuery rows pat e1 incl = listQuery rows pat e2 incl := by
  unfold listQuery
  have hfr : rows.filter (fun r => likeMatch pat r.name && e1 r)
      = rows.filter (fun r => likeMatch pat r.name && e2 r) :=
    List.filter_congr (fun a ha => by rw [h a ha])
  rw [hfr]

/-- **C3** `Count(prefix)` returns a revision `R` and a count `C`
describing one consistent instant (both read by the single `CountSQL`
statement): with no concurrent modification — which the sequential
state-passing model enforces — `List(prefix, "", 0, R, false)` yields
exactly `C` rows, because every id in the table is bounded by the
global maximum `R`, making the `id <= R` group bound vacuous. -/
theorem count_matches_list (s : DBState) (pat : String) :
    ∃ R C, Generic.Count s pat = .ok (R, C) ∧
      ((Generic.List s pat "" 0 R false).length : Int) = C := by
  refine ⟨nullInt64 (revQuery s.rows),
    ((listQuery s.rows pat (fun _ => true) false).length : Int), rfl, ?_⟩
  rw [generic_list_empty_startKey, applyLimit_zero]
  have hext : ∀ r ∈ s.rows,
      decide (r.id ≤ nullInt64 (revQuery s.rows)) = true := by
    intro r hr
    cases hm : maxId s.rows with
    | none =>
      rw [maxId_eq_none_iff] at hm
      rw [hm] at hr
      simp at hr
    | some m =>
      have hle := le_maxId s.rows r m hr hm
      simp only [revQuery, hm, nullInt64]
      exact decide_eq_true hle
  rw [listQuery_congr s.rows pat _ (fun _ => true) false hext]

theorem map_id_of {α : Type} (f : α → α) :
    ∀ (l : List α), (∀ a ∈ l, f a = a) → l.map f = l := by
  intro l
  induction l with
  | nil => intro _; rfl
  | cons x xs ih =>
    intro h
    simp only [List.map_cons]
    rw [h x (List.mem_cons_self x xs), ih (fun a ha => h a (List.mem_cons_of_mem x ha))]

theorem updateCompact_id (s : DBState) (R : Int)
    (h : s.rows.filter (fun r => r.name == "compact_rev_key") = []) :
    updateCompact s R = s := by
  unfold updateCompact
  have h2 := List.filter_eq_nil_iff.mp h
  have hmap : s.rows.map (fun r =>
      if r.name == "compact_rev_key" then { r with prev_revision := R } else r) = s.rows := by
    apply map_id_of
    intro a ha
    rw [if_neg (h2 a ha)]
  rw [hmap]

theorem setCompactRevision_eq (lid : Bool) (s : DBState) (R : Int) :
    Generic.SetCompactRevision lid s R =
      .ok (if (s.rows.filter (fun r => r.name == "compact_rev_key")).length = 0
           then ⟨s.rows ++ [⟨s.nextId, "compact_rev_key", 0, 0, 0, R, 0, [], none⟩],
                 s.nextId + 1⟩
           else updateCompact s R) := by
  simp only [Generic.SetCompactRevision]
  by_cases h : (s.rows.filter (fun r => r.name == "compact_rev_key")).length = 0
  · have hnil := List.length_eq_zero.mp h
    rw [if_neg (by omega), if_pos h, insert_snd, updateCompact_id s R hnil]
    simp
  · rw [if_pos h, if_neg h]

/-- **C7** `SetCompactRevision(R)` first issues the sentinel UPDATE;
exactly when that update affects zero rows (no sentinel exists) it
falls back to inserting a fresh sentinel row with `prev_revision = R`,
`created = 0`, `deleted = 0`, `create_revision = 0` and an empty value —
and in both branches the result is a nil error, the zero-rows-affected
case being handled locally rather than surfaced. -/
theorem setCompactRevision_update_then_insert (lid : Bool) (s : DBState) (R : Int) :
    Generic.SetCompactRevision lid s R =
      .ok (if (s.rows.filter (fun r => r.name == "compact_rev_key")).length = 0
           then ⟨s.rows ++ [⟨s.nextId, "compact_rev_key", 0, 0, 0, R, 0, [], none⟩],
                 s.nextId + 1⟩
           else updateCompact s R) :=
  setCompactRevision_eq lid s R

theorem length_filter_sentinel_update (R : Int) : ∀ (l : List KeyValue),
    ((l.map (fun r =>
        if r.name == "compact_rev_key" then { r with prev_revision := R } else r)).filter
      (fun r => r.name == "compact_rev_key")).length =
    (l.filter (fun r => r.name == "compact_rev_key")).length := by
  intro l
  induction l with
  | nil => rfl
  | cons x xs ih =>
    simp only [List.map_cons, List.filter_cons]
    by_cases hx : (x.name == "compact_rev_key") = true
    · have hux : (if x.name == "compact_rev_key"
          then ({ x with prev_revision := R } : KeyValue) else x)
          = { x with prev_revision := R } := if_pos hx
      rw [hux, if_pos hx, if_pos hx]
      simp only [List.length_cons, ih]
    · have hux : (if x.name == "compact_rev_key"
          then ({ x with prev_revision := R } : KeyValue) else x) = x := if_neg hx
      rw [hux, if_neg hx, if_neg hx]
      exact ih

theorem updateCompact_sentinel_prev (s : DBState) (R : Int) :
    ∀ r ∈ (updateCompact s R).rows, (r.name == "compact_rev_key") = true →
      r.prev_revision = R := by
  intro r hr hname
  unfold updateCompact at hr
  rcases List.mem_map.mp hr with ⟨a, ha, hfa⟩
  by_cases hx : (a.name == "compact_rev_key") = true
  · rw [if_pos hx] at hfa
    rw [← hfa]
  · rw [if_neg hx] at hfa
    subst hfa
    exact absurd hname hx

theorem maxRowBy_eq_none_iff (l : List KeyValue) : maxRowBy l = none ↔ l = [] := by
  cases l with
  | nil => simp [maxRowBy]
  | cons x xs =>
    simp only [maxRowBy]
    cases hx : maxRowBy xs with
    | none => simp
    | some m =>
      by_cases h : x.id < m.id <;> simp [h]

theorem getCompactRevision_of_prev (s : DBState) (R : Int)
    (hne : s.rows.filter (fun r => r.name == "compact_rev_key") ≠ [])
    (hall : ∀ r ∈ s.rows, (r.name == "compact_rev_key") = true → r.prev_revision = R) :
    Generic.GetCompactRevision s = .ok R := by
  unfold Generic.GetCompactRevision compactRevQuery
  cases hm : maxRowBy (s.rows.filter (fun r => r.name == "compact_rev_key")) with
  | none => exact absurd ((maxRowBy_eq_none_iff _).mp hm) hne
  | some r =>
    have hrmem := maxRowBy_mem _ r hm
    have hr1 := (List.mem_filter.mp hrmem).1
    have hr2 := (List.mem_filter.mp hrmem).2
    have hprev := hall r hr1 hr2
    simp [scanOpt, hprev]

/-- **C4** Compaction idempotence: starting from any state with at most
one sentinel row (the invariant absent concurrent writers), calling
`SetCompactRevision(R)` twice in a row leaves `GetCompactRevision`
returning `R` and exactly one `compact_rev_key` sentinel row in the
table; the second call takes the update-in-place branch and inserts
nothing (the row count is unchanged by it). -/
theorem setCompactRevision_idempotent (lid1 lid2 : Bool) (s : DBState) (R : Int)
    (h : (s.rows.filter (fun r => r.name == "compact_rev_key")).length ≤ 1) :
    ∀ s1 s2, Generic.SetCompactRevision lid1 s R = .ok s1 →
      Generic.SetCompactRevision lid2 s1 R = .ok s2 →
      Generic.GetCompactRevision s2 = .ok R ∧
      (s2.rows.filter (fun r => r.name == "compact_rev_key")).length = 1 ∧
      s2.rows.length = s1.rows.length := by
  intro s1 s2 h1 h2
  rw [setCompactRevision_eq] at h1
  injection h1 with h1
  have hcount1 : (s1.rows.filter (fun r => r.name == "compact_rev_key")).length = 1 := by
    by_cases hc : (s.rows.filter (fun r => r.name == "compact_rev_key")).length = 0
    · rw [if_pos hc] at h1
      subst h1
      have hnil := List.length_eq_zero.mp hc
      simp [List.filter_append, hnil]
    · rw [if_neg hc] at h1
      subst h1
      show (((s.rows.map (fun r =>
        if r.name == "compact_rev_key" then { r with prev_revision := R } else r)).filter
          (fun r => r.name == "compact_rev_key")).length) = 1
      rw [length_filter_sentinel_update]
      omega
  rw [setCompactRevision_eq] at h2
  rw [if_neg (by omega)] at h2
  injection h2 with h2
  subst h2
  refine ⟨?_, ?_, ?_⟩
  · apply getCompactRevision_of_prev
    · intro hnil
      have hlen : ((updateCompact s1 R).rows.filter
          (fun r => r.name == "compact_rev_key")).length = 1 := by
        show (((s1.rows.map (fun r =>
          if r.name == "compact_rev_key" then { r with prev_revision := R } else r)).filter
            (fun r => r.name == "compact_rev_key")).length) = 1
        rw [length_filter_sentinel_update]
        exact hcount1
      rw [hnil] at hlen
      simp at hlen
    · exact updateCompact_sentinel_prev s1 R
  · show (((s1.rows.map (fun r =>
      if r.name == "compact_rev_key" then { r with prev_revision := R } else r)).filter
        (fun r => r.name == "compact_rev_key")).length) = 1
    rw [length_filter_sentinel_update]
    exact hcount1
  · show (s1.rows.map (fun r =>
      if r.name == "compact_rev_key" then { r with prev_revision := R } else r)).length
      = s1.rows.length
    rw [List.length_map]

theorem setCompactRevision_idempotent_witness :
    Generic.GetCompactRevision
        (updateCompact ⟨[⟨1, "compact_rev_key", 0, 0, 0, 5, 0, [], none⟩], 2⟩ 5) = .ok 5 ∧
    ((updateCompact ⟨[⟨1, "compact_rev_key", 0, 0, 0, 5, 0, [], none⟩], 2⟩ 5).rows.filter
        (fun r => r.name == "compact_rev_key")).length = 1 ∧
    (updateCompact ⟨[⟨1, "compact_rev_key", 0, 0, 0, 5, 0, [], none⟩], 2⟩ 5).rows.length =
      (⟨[⟨1, "compact_rev_key", 0, 0, 0, 5, 0, [], none⟩], 2⟩ : DBState).rows.length :=
  setCompactRevision_idempotent false false ⟨[], 1⟩ 5 (by decide)
    ⟨[⟨1, "compact_rev_key", 0, 0, 0, 5, 0, [], none⟩], 2⟩
    (updateCompact ⟨[⟨1, "compact_rev_key", 0, 0, 0, 5, 0, [], none⟩], 2⟩ 5)
    (by decide) (by decide)

/-- **C10** `Insert` stores the create/delete booleans as the integers
1 (true) and 0 (false) in the appended row, and consequently every
reachable table state — empty table followed by any sequence of
`Insert`, `DeleteRevision` and `SetCompactRevision` calls — has
`created ∈ {0,1}` and `deleted ∈ {0,1}` on every row, the invariant
the list template's tombstone filter `kv.deleted = 0 OR ?` relies on. -/
theorem insert_flags_zero_one :
    (∀ (lid : Bool) (s : DBState) (key : String) (c d : Bool) (cr pr ttl : Int)
        (v : List Nat) (pv : Option (List Nat)),
      (Generic.Insert lid s key c d cr pr ttl v pv).2.rows =
        s.rows ++ [⟨s.nextId, key, if c then 1 else 0, if d then 1 else 0, cr, pr, ttl, v, pv⟩]) ∧
    (∀ s, Reachable s → ∀ r ∈ s.rows,
      (r.created = 0 ∨ r.created = 1) ∧ (r.deleted = 0 ∨ r.deleted = 1)) := by
  constructor
  · intro lid s key c d cr pr ttl v pv
    rw [insert_snd]
  · intro s hs
    induction hs with
    | init => intro r hr; simp at hr
    | insert lid s0 key c d cr pr ttl v pv _ ih =>
      intro r hr
      rw [insert_snd] at hr
      simp only [List.mem_append, List.mem_singleton] at hr
      rcases hr with h1 | h2
      · exact ih r h1
      · subst h2
        constructor
        · cases c <;> simp
        · cases d <;> simp
    | deleteRev s0 rev s2 _ hdel ih =>
      intro r hr
      unfold Generic.DeleteRevision at hdel
      injection hdel with hdel
      subst hdel
      exact ih r (List.mem_filter.mp hr).1
    | setCompact lid s0 rev s2 _ hset ih =>
      intro r hr
      rw [setCompactRevision_eq] at hset
      injection hset with hset
      subst hset
      by_cases hc : (s0.rows.filter (fun r2 => r2.name == "compact_rev_key")).length = 0
      · rw [if_pos hc] at hr
        simp only [List.mem_append, List.mem_singleton] at hr
        rcases hr with h1 | h2
        · exact ih r h1
        · subst h2
          exact ⟨Or.inl rfl, Or.inl rfl⟩
      · rw [if_neg hc] at hr
        rcases List.mem_map.mp hr with ⟨a, ha, hfa⟩
        have hia := ih a ha
        by_cases hx : (a.name == "compact_rev_key") = true
        · rw [if_pos hx] at hfa
          subst hfa
          exact hia
        · rw [if_neg hx] at hfa
          subst hfa
          exact hia

theorem insert_flags_zero_one_witness :
    ((⟨1, "a", 1, 0, 0, 0, 0, [49], none⟩ : KeyValue).created = 0 ∨
      (⟨1, "a", 1, 0, 0, 0, 0, [49], none⟩ : KeyValue).created = 1) ∧
    ((⟨1, "a", 1, 0, 0, 0, 0, [49], none⟩ : KeyValue).deleted = 0 ∨
      (⟨1, "a", 1, 0, 0, 0, 0, [49], none⟩ : KeyValue).deleted = 1) :=
  insert_flags_zero_one.2 (Generic.Insert false ⟨[], 1⟩ "a" true false 0 0 0 [49] none).2
    (Reachable.insert false ⟨[], 1⟩ "a" true false 0 0 0 [49] none Reachable.init)
    ⟨1, "a", 1, 0, 0, 0, 0, [49], none⟩ (by decide)

theorem listQuery_excludes_tomb (rows : List KeyValue) (pat : String)
    (extra : KeyValue → Bool) (k : String) (t : KeyValue)
    (hUniq : ∀ r1 ∈ rows, ∀ r2 ∈ rows, r1.id = r2.id → r1 = r2)
    (ht : t ∈ rows) (htn : t.name = k)
    (hte : (likeMatch pat t.name && extra t) = true)
    (hmax : ∀ r ∈ rows, r.name = k → extra r = true → r.id ≤ t.id)
    (hdel : t.deleted = 1) :
    ∀ r ∈ listQuery rows pat extra false, r.name ≠ k := by
  intro r hr hk
  rw [mem_listQuery] at hr
  rcases hr with ⟨hrrows, hid, hdel0⟩
  simp only [Bool.or_false, beq_iff_eq] at hdel0
  rcases mem_groupMaxIds _ _ hid with ⟨g, hgmem, hgid, hgmax⟩
  have hgrows : g ∈ rows := (List.mem_filter.mp hgmem).1
  have hrg : r = g := hUniq r hrrows g hgrows (by omega)
  have htfr : t ∈ rows.filter (fun r2 => likeMatch pat r2.name && extra r2) :=
    List.mem_filter.mpr ⟨ht, hte⟩
  have htg : t.name = g.name := by rw [htn, ← hk, hrg]
  have h1 : t.id ≤ r.id := hgmax t htfr htg
  have hgf := (List.mem_filter.mp hgmem).2
  rw [Bool.and_eq_true] at hgf
  have hex : extra r = true := by rw [hrg]; exact hgf.2
  have h2 : r.id ≤ t.id := hmax r hrrows hk hex
  have hrt : r = t := hUniq r hrrows t ht (by omega)
  rw [hrt] at hdel0
  omega

theorem listQuery_includes_max (rows : List KeyValue) (pat : String)
    (extra : KeyValue → Bool) (t : KeyValue)
    (ht : t ∈ rows) (hte : (likeMatch pat t.name && extra t) = true)
    (hmax : ∀ r ∈ rows, r.name = t.name → extra r = true → r.id ≤ t.id) :
    t ∈ listQuery rows pat extra true := by
  rw [mem_listQuery]
  refine ⟨ht, ?_, by simp⟩
  apply groupMaxIds_mem_of
  · exact List.mem_filter.mpr ⟨ht, hte⟩
  · intro r2 h2 hname
    have h2rows := (List.mem_filter.mp h2).1
    have h2f := (List.mem_filter.mp h2).2
    rw [Bool.and_eq_true] at h2f
    exact hmax r2 h2rows hname h2f.2

/-- **C8** Tombstone visibility: for a key `k` matched by the prefix
pattern whose newest version `t` (globally, hence also at every
snapshot `R ≥ t.id`) carries `deleted = 1`, the key contributes no row
to `ListCurrent` with `includeDeleted = false` nor to
`List(prefix, "", lim, R, false)` for any limit; its tombstone row is
returned by both `ListCurrent` and `List` when `includeDeleted = true`
(with no limit cap); and every stored version of the key newer than the
`After` bound — the tombstone included, with no deleted filter at
all — appears in `After`. -/
theorem tombstone_visibility (s : DBState) (pat k : String) (t : KeyValue) (R : Int)
    (hUniq : ∀ r1 ∈ s.rows, ∀ r2 ∈ s.rows, r1.id = r2.id → r1 = r2)
    (ht : t ∈ s.rows) (htn : t.name = k) (hp : likeMatch pat k = true)
    (hmax : ∀ r ∈ s.rows, r.name = k → r.id ≤ t.id)
    (hdel : t.deleted = 1) (hR : t.id ≤ R) :
    (∀ lim, ∀ r ∈ Generic.ListCurrent s pat lim false, r.name ≠ k) ∧
    (∀ lim, ∀ r ∈ Generic.List s pat "" lim R false, r.name ≠ k) ∧
    t ∈ Generic.ListCurrent s pat 0 true ∧
    t ∈ Generic.List s pat "" 0 R true ∧
    (∀ rev, ∀ r ∈ s.rows, r.name = k → rev < r.id → r ∈ Generic.After s pat rev) := by
  have hpt : likeMatch pat t.name = true := by rw [htn]; exact hp
  refine ⟨?_, ?_, ?_, ?_, ?_⟩
  · intro lim r hr
    have hr2 := mem_applyLimit r lim _ hr
    exact listQuery_excludes_tomb s.rows pat (fun _ => true) k t hUniq ht htn
      (by simp [hpt]) (fun r2 h2 hn _ => hmax r2 h2 hn) hdel r hr2
  · intro lim r hr
    rw [generic_list_empty_startKey] at hr
    have hr2 := mem_applyLimit r lim _ hr
    exact listQuery_excludes_tomb s.rows pat (fun r2 => decide (r2.id ≤ R)) k t hUniq ht htn
      (by rw [hpt]; simp [hR]) (fun r2 h2 hn _ => hmax r2 h2 hn) hdel r hr2
  · show t ∈ applyLimit 0 (listQuery s.rows pat (fun _ => true) true)
    rw [applyLimit_zero]
    exact listQuery_includes_max s.rows pat (fun _ => true) t ht (by simp [hpt])
      (fun r2 h2 hn _ => hmax r2 h2 (hn.trans htn))
  · rw [generic_list_empty_startKey, applyLimit_zero]
    exact listQuery_includes_max s.rows pat (fun r2 => decide (r2.id ≤ R)) t ht
      (by rw [hpt]; simp [hR])
      (fun r2 h2 hn _ => hmax r2 h2 (hn.trans htn))
  · intro rev r hr hname hgt
    unfold Generic.After
    rw [mem_sortById, List.mem_filter]
    refine ⟨hr, ?_⟩
    rw [hname, hp]
    simp [hgt]

theorem tombstone_visibility_witness :
    (⟨2, "x", 0, 1, 1, 1, 0, [], some [1]⟩ : KeyValue) ∈
      Generic.ListCurrent exTombState "x%" 0 true :=
  (tombstone_visibility exTombState "x%" "x" ⟨2, "x", 0, 1, 1, 1, 0, [], some [1]⟩ 5
    (by decide) (by decide) rfl (by decide) (by decide) rfl (by decide)).2.2.1
